import Mathlib

set_option autoImplicit false

/-!
Shallow embedding of the pyrelease conventional-commit engine:
the bump-mapping parser, the conventional bump decision, the changelog
composition and the format template engine, together with proofs of the
specification claims about them.
-/

/-- Python strings are modelled as lists of characters. -/
abbrev Str := List Char

/-- The six ASCII whitespace characters recognised by Python's str.strip. -/
def isPySpace (c : Char) : Bool :=
  c = ' ' || c = '\t' || c = '\n' || c = '\r' || c = Char.ofNat 11 || c = Char.ofNat 12

/-- Python str.strip: remove leading and trailing whitespace. -/
def pyStrip (s : Str) : Str :=
  ((s.dropWhile isPySpace).reverse.dropWhile isPySpace).reverse

/-- Python str.split(sep) for a single-character separator. -/
def splitOnChar (c : Char) : Str → List Str
  | [] => [[]]
  | x :: xs =>
    if x = c then [] :: splitOnChar c xs
    else
      match splitOnChar c xs with
      | [] => [[x]]
      | h :: t => (x :: h) :: t

/-- Python sep.join(parts). -/
def joinWith (sep : Str) : List Str → Str
  | [] => []
  | [x] => x
  | x :: xs => x ++ sep ++ joinWith sep xs

/-- The text before the first colon: message.split(sep, 1)[0] with sep = colon. -/
def typeCandidate (s : Str) : Str := s.takeWhile (fun c => c != ':')

/-- Python str.upper for the ASCII names used here. -/
def pyUpper (s : Str) : Str := s.map Char.toUpper

/-- Lookup in an insertion-ordered association list (Python dict access). -/
def alistLookup {β : Type} : List (Str × β) → Str → Option β
  | [], _ => none
  | p :: rest, k => if p.1 = k then some p.2 else alistLookup rest k

/-- dict.setdefault(k, []).append(v): append v to the bucket of k,
creating the bucket at the end when k is a new key. -/
def setdefaultAppend : List (Str × List Str) → Str → Str → List (Str × List Str)
  | [], k, v => [(k, [v])]
  | p :: rest, k, v =>
    if p.1 = k then (p.1, p.2 ++ [v]) :: rest else p :: setdefaultAppend rest k v

/-- The BumpLevel enumeration: name (uppercased) and declared value. -/
def bumpLevelTable : List (Str × Nat) :=
  [("MAJOR".data, 1), ("MINOR".data, 2), ("PATCH".data, 3), ("STABLE".data, 4),
   ("ALPHA".data, 5), ("BETA".data, 6), ("RC".data, 7), ("POST".data, 8), ("DEV".data, 9)]

/-- The lowercase bump-level names used for mapping validation. -/
def lowerLevelNames : List Str :=
  ["major".data, "minor".data, "patch".data, "stable".data, "alpha".data,
   "beta".data, "rc".data, "post".data, "dev".data]

def emptyMappingMsg : String := "Bump mapping string cannot be empty."

def invalidMappingMsg (m : Str) : String :=
  "Invalid bump mapping '" ++ String.mk m ++ "'. Expected format 'type:level'."

def invalidLevelMsg (l m : Str) : String :=
  "Invalid bump level '" ++ String.mk l ++ "' in mapping '" ++ String.mk m ++ "'."

def duplicateTypeMsg (t l1 l2 : Str) : String :=
  "Duplicate commit type '" ++ String.mk t ++ "' both mapped to '" ++
    String.mk l1 ++ "' and '" ++ String.mk l2 ++ "'."

def unpackMsg : String := "too many values to unpack (expected 2)"

def check_mapping_format (m : Str) : Except String Unit :=
  if ':' ∈ m then .ok () else .error (invalidMappingMsg m)

def check_valid_level (l m : Str) : Except String Unit :=
  if pyStrip l ∈ lowerLevelNames then .ok () else .error (invalidLevelMsg l m)

def check_no_duplicate_commit_type (acc : List (Str × List Str)) (t l : Str) :
    Except String Unit :=
  match acc with
  | [] => .ok ()
  | p :: rest =>
    if pyStrip t ∈ p.2 then .error (duplicateTypeMsg t p.1 l)
    else check_no_duplicate_commit_type rest t l

/-- Tuple unpacking a, b = parts: exactly two elements or a ValueError. -/
def unpack2 (parts : List Str) : Except String (Str × Str) :=
  match parts with
  | [a, b] => .ok (a, b)
  | _ :: _ :: _ :: _ => .error unpackMsg
  | _ => .error "not enough values to unpack (expected 2, got 1)"

/-- The body of the for-loop of collect_bump_mapping over the comma-split pieces. -/
def collectLoop : List Str → List (Str × List Str) → Except String (List (Str × List Str))
  | [], acc => .ok acc
  | m :: rest, acc =>
    if pyStrip m = [] then collectLoop rest acc
    else do
      check_mapping_format m
      let (t, l) ← unpack2 (splitOnChar ':' m)
      check_valid_level l m
      check_no_duplicate_commit_type acc t l
      collectLoop rest (setdefaultAppend acc (pyStrip l) (pyStrip t))

/-- collect_bump_mapping from commands/bump.py. -/
def collect_bump_mapping (s : Str) : Except String (List (Str × List Str)) :=
  if pyStrip s = [] then .error emptyMappingMsg
  else collectLoop (splitOnChar ',' s) []

structure GitCommit where
  remote_url : Str := []
  abbr_hash : Str := []
  commit_hash : Str := []
  message : Str := []
  author : Str := []
  author_email : Str := []
  date : Str := []
  committer_name : Str := []
  committer_email : Str := []
  committer_date : Str := []
  deriving DecidableEq, Repr

def mkCommit (msg : Str) : GitCommit := { message := msg }

/-- BumpLevel bracket access by name: KeyError when the name is unknown. -/
def bumpLevelValue (s : Str) : Except String Nat :=
  match alistLookup bumpLevelTable (pyUpper s) with
  | some v => .ok v
  | none => .error ("KeyError: " ++ String.mk (pyUpper s))

/-- The inner for-loop of determine_bump_from_conventional_commits:
one commit type checked against every mapping entry. Python's or
short-circuits, so the enum lookup only happens when a level is
already stored. -/
def bumpUpdate (mapping : List (Str × List Str)) (ctype : Str) (h0 : Option Str) :
    Except String (Option Str) :=
  mapping.foldlM (fun h p =>
    if ctype ∈ p.2 then
      match h with
      | none => pure (some p.1)
      | some cur => do
        let v ← bumpLevelValue p.1
        let w ← bumpLevelValue cur
        pure (if v < w then some p.1 else some cur)
    else pure h) h0

/-- The classification loop of determine_bump_from_conventional_commits
(lines 98-109 of commands/bump.py), over an already retrieved commit
list and an already parsed mapping. -/
def determine_bump (commits : List GitCommit) (mapping : List (Str × List Str)) :
    Except String (Option Str) :=
  commits.foldlM (fun h c => bumpUpdate mapping (typeCandidate c.message) h) none

/-- Keep the first occurrence of each element, dropping later duplicates
(the key order of a Python dict built by insertion). -/
def dedupFirstAux {α : Type} [DecidableEq α] (seen : List α) : List α → List α
  | [] => []
  | x :: xs => if x ∈ seen then dedupFirstAux seen xs else x :: dedupFirstAux (x :: seen) xs

def dedupFirst {α : Type} [DecidableEq α] (xs : List α) : List α := dedupFirstAux [] xs

def lbrace : Char := Char.ofNat 123

def rbrace : Char := Char.ofNat 125

def noTemplateMsg : String := "No format string provided."

def fieldNameOf (field : Str) : Str := field.takeWhile (fun c => c != ':' && c != '!')

/-- One pass of string.Formatter.parse restricted to flat fields: literal
chunks on the left, placeholder field names on the right. Doubled braces
are literals; a field runs to the closing brace. The first argument is
none outside a field and some acc while scanning a field body. -/
def parseFmtAux : Option Str → Str → Except String (List (Str ⊕ Str))
  | none, [] => .ok []
  | none, c :: rest =>
    if c = rbrace then
      match rest with
      | c2 :: rest2 =>
        if c2 = rbrace then (parseFmtAux none rest2).map (fun items => .inl [rbrace] :: items)
        else .error "Single closing brace encountered in format string"
      | [] => .error "Single closing brace encountered in format string"
    else if c = lbrace then
      match rest with
      | c2 :: rest2 =>
        if c2 = lbrace then (parseFmtAux none rest2).map (fun items => .inl [lbrace] :: items)
        else if c2 = rbrace then
          (parseFmtAux none rest2).map (fun items => .inr (fieldNameOf []) :: items)
        else parseFmtAux (some [c2]) rest2
      | [] => .error "expected closing brace before end of string"
    else (parseFmtAux none rest).map (fun items => .inl [c] :: items)
  | some _, [] => .error "expected closing brace before end of string"
  | some acc, c :: rest =>
    if c = rbrace then
      (parseFmtAux none rest).map (fun items => .inr (fieldNameOf acc) :: items)
    else parseFmtAux (some (acc ++ [c])) rest

def parseFmt (s : Str) : Except String (List (Str ⊕ Str)) := parseFmtAux none s

/-- The distinct placeholder names of a template, first occurrences first. -/
def formatKeys (s : Str) : Except String (List Str) :=
  (parseFmt s).map (fun items =>
    dedupFirst (items.filterMap (fun i =>
      match i with
      | .inr f => some f
      | .inl _ => none)))

/-- Literal substitution of a parsed template against keyword values. -/
def renderFmt (s : Str) (kw : List (Str × Str)) : Except String Str := do
  let items ← parseFmt s
  items.foldlM (fun acc i =>
    match i with
    | .inl lit => pure (acc ++ lit)
    | .inr f =>
      match alistLookup kw f with
      | some v => pure (acc ++ v)
      | none => .error ("KeyError: " ++ String.mk f)) []

structure CustomFormatter where
  _string : Option Str

def CustomFormatter.get_keys (cf : CustomFormatter) (format_string : Option Str) :
    Except String (List Str) :=
  match format_string with
  | some fs => formatKeys fs
  | none =>
    match cf._string with
    | none => .error noTemplateMsg
    | some fs => formatKeys fs

def CustomFormatter.format (cf : CustomFormatter) (kwargs : List (Str × Str)) :
    Except String Str :=
  match cf._string with
  | none => .error noTemplateMsg
  | some s => renderFmt s kwargs

def quoteJoin (ks : List Str) : String :=
  match ks with
  | [] => ""
  | [k] => "'" ++ String.mk k ++ "'"
  | k :: rest => "'" ++ String.mk k ++ "', " ++ quoteJoin rest

def invalidKeysMsg (unsupported valid : List Str) : String :=
  "Found invalid keys in format string: " ++ quoteJoin unsupported ++ ".\n " ++
    "Valid keys are: " ++ quoteJoin valid ++ "."

def CustomFormatter.check_format_string (cf : CustomFormatter)
    (mapping : List (Str × Str)) (format_string : Option Str) : Except String Unit := do
  let fs ← (match format_string with
    | some fs => Except.ok fs
    | none =>
      match cf._string with
      | none => Except.error noTemplateMsg
      | some fs => Except.ok fs)
  if mapping = [] then .error "No mapping provided to check format string against."
  else do
    let keys ← formatKeys fs
    let valid := mapping.map (fun p => p.1)
    let unsupported := keys.filter (fun k => !(valid.contains k))
    if unsupported = [] then .ok ()
    else .error (invalidKeysMsg unsupported (dedupFirst valid))

/-- dataclasses.asdict of a GitCommit, in field declaration order. -/
def asdict (c : GitCommit) : List (Str × Str) :=
  [("remote_url".data, c.remote_url), ("abbr_hash".data, c.abbr_hash),
   ("commit_hash".data, c.commit_hash), ("message".data, c.message),
   ("author".data, c.author), ("author_email".data, c.author_email),
   ("date".data, c.date), ("committer_name".data, c.committer_name),
   ("committer_email".data, c.committer_email), ("committer_date".data, c.committer_date)]

/-- format_commit from commands/changelog.py: validate the template against
the commit fields, then render it. -/
def format_commit (c : GitCommit) (commit_format : Str) : Except String Str := do
  let formatter : CustomFormatter := ⟨some commit_format⟩
  formatter.check_format_string (asdict c) none
  formatter.format (asdict c)

/-- Append to the bucket of an existing section key. -/
def bucketAppend : List (Str × List Str) → Str → Str → List (Str × List Str)
  | [], _, _ => []
  | p :: rest, k, v =>
    if p.1 = k then (p.1, p.2 ++ [v]) :: rest else p :: bucketAppend rest k v

/-- The initial sections dict of generate_conventional_changelog: one empty
bucket per distinct section name, in first-seen order. -/
def sectionsFor (tm : List (Str × Str)) : List (Str × List Str) :=
  (dedupFirst (tm.map (fun p => p.2))).map (fun s => (s, []))

/-- One iteration of the commit loop of generate_conventional_changelog.
A looked-up section routes the rendered commit to its bucket unless the
section name is falsy (empty); unmatched commits go to other_changes. -/
def changelogStep (tm : List (Str × Str)) (fmt : Str)
    (st : List (Str × List Str) × List Str) (c : GitCommit) :
    Except String (List (Str × List Str) × List Str) :=
  match alistLookup tm (typeCandidate c.message) with
  | some sec =>
    if sec ≠ [] then do
      let fc ← format_commit c fmt
      pure (bucketAppend st.1 sec fc, st.2)
    else do
      let fc ← format_commit c fmt
      pure (st.1, st.2 ++ [fc])
  | none => do
    let fc ← format_commit c fmt
    pure (st.1, st.2 ++ [fc])

/-- The final assembly of generate_conventional_changelog: non-empty named
sections as header blocks, then the Other Changes block, joined by blank
lines. -/
def renderSections (sections : List (Str × List Str)) (others : List Str) : Str :=
  let blocks := sections.filterMap (fun p =>
    if p.2 ≠ [] then some ("### ".data ++ p.1 ++ '\n' :: joinWith ['\n'] p.2) else none)
  let blocks := blocks ++
    (if others ≠ [] then ["### Other Changes\n".data ++ joinWith ['\n'] others] else [])
  joinWith ('\n' :: '\n' :: []) blocks

/-- generate_conventional_changelog from commands/changelog.py. -/
def generate_conventional_changelog (commits : List GitCommit)
    (tm : List (Str × Str)) (commit_format : Str) : Except String Str := do
  let st ← commits.foldlM (changelogStep tm commit_format) (sectionsFor tm, [])
  pure (renderSections st.1 st.2)

/-- The repository state seen by the conventional bump path: the full
commit list to HEAD, most recent first, and for each tag the number of
commits made after it. -/
structure RepoState where
  commits : List GitCommit
  tags : List (Str × Nat)

/-- Modelled from the spec: GitRepository.get_latest_tag is absent from the
sources (only its callers and the interface declaration exist). Per §6 it
returns the most recent existing version tag or none; the most recent tag
is the one with the fewest commits after it. -/
def get_latest_tag (s : RepoState) : Option Str :=
  (s.tags.foldl (fun best p =>
    match best with
    | none => some p
    | some q => if p.2 < q.2 then some p else some q) none).map (fun p => p.1)

/-- Modelled from the spec: get_commits(from_ref, to_ref) of the
SourceControlProvider, ordered most recent first; an omitted from_ref
means all history, a tag ref means the commits after that tag, and an
unknown ref is a hard failure. -/
def get_commits_since (s : RepoState) (from_ref : Option Str) :
    Except String (List GitCommit) :=
  match from_ref with
  | none => .ok s.commits
  | some r =>
    match alistLookup s.tags r with
    | some n => .ok (s.commits.take n)
    | none => .error ("Failed to get git commits for range '" ++ String.mk r ++ "..HEAD'")

/-- determine_bump_from_conventional_commits (lines 93-109 of
commands/bump.py): scope commits to those since the latest tag, parse the
mapping, then run the classification loop. -/
def determine_bump_from_conventional_commits (s : RepoState) (bump_mapping_str : Str) :
    Except String (Option Str) := do
  let latest_tag := get_latest_tag s
  let commits ← get_commits_since s latest_tag
  let mapping ← collect_bump_mapping bump_mapping_str
  determine_bump commits mapping

/-- Modelled from argparse semantics of the register() declaration of the
bump command: --bump is a single-valued store option with the lowercase
level names as choices, so a later occurrence overwrites an earlier one. -/
def parseBumpOption : List Str → Option Str → Except String (Option Str)
  | [], acc => .ok acc
  | a :: rest, acc =>
    if a = "--bump".data then
      match rest with
      | v :: rest2 =>
        if v ∈ lowerLevelNames then parseBumpOption rest2 (some v)
        else .error ("argument --bump: invalid choice: " ++ String.mk v)
      | [] => .error "argument --bump: expected one argument"
    else parseBumpOption rest acc

/-- The bump selection of execute (lines 56-70 of commands/bump.py), with
the conventional-commit decision passed in as the result it would produce. -/
def execute_select_bump (bump : Option Str) (conventional : Bool)
    (conventionalBump : Except String (Option Str)) : Except String (Option Str) :=
  if bump.isNone && !conventional then
    .error ("Either --bump or --conventional must be specified " ++
      "to determine the version bump.")
  else if conventional then conventionalBump
  else .ok bump

/-- Claim-side rank of a level name: its declared BumpLevel value
(major 1, minor 2, patch 3, ...; smaller value means higher precedence). -/
def levelRank (s : Str) : Nat := (alistLookup bumpLevelTable (pyUpper s)).getD 0

/-- Claim-side: the level appears in the mapping with a type set containing
the derived type of at least one commit. -/
def MatchesLevel (commits : List GitCommit) (mapping : List (Str × List Str))
    (level : Str) : Prop :=
  ∃ p ∈ mapping, p.1 = level ∧ ∃ c ∈ commits, typeCandidate c.message ∈ p.2

/-- Claim-side grouping of entries by level: per-level buckets in first-
appearance order of levels, each bucket listing its types in input order. -/
def groupSpec (entries : List (Str × Str)) : List (Str × List Str) :=
  (dedupFirst (entries.map (fun e => e.2))).map (fun l =>
    (l, entries.filterMap (fun e => if e.2 = l then some e.1 else none)))

/-- The section a commit routes to: the mapping entry of its derived type. -/
def routedSection (tm : List (Str × Str)) (c : GitCommit) : Option Str :=
  alistLookup tm (typeCandidate c.message)

/-- Claim-side changelog document: named sections in first-appearance order
of section names, sections without matching commits omitted, unmatched
commits in a trailing Other Changes block (omitted when empty), each block
a header line followed by its commit lines, blocks joined by a blank line. -/
def conventional_changelog_spec (commits : List GitCommit) (tm : List (Str × Str))
    (r : GitCommit → Str) : Str :=
  let names := dedupFirst (tm.map (fun p => p.2))
  let bucket := fun n => (commits.filter (fun c => routedSection tm c = some n)).map r
  let others := (commits.filter (fun c => routedSection tm c = none)).map r
  let blocks := names.filterMap (fun n =>
    if bucket n ≠ [] then
      some ("### ".data ++ n ++ '\n' :: joinWith ['\n'] (bucket n))
    else none)
  let blocks := blocks ++
    (if others ≠ [] then ["### Other Changes\n".data ++ joinWith ['\n'] others] else [])
  joinWith ('\n' :: '\n' :: []) blocks

/-- The sections-and-others state of the commit loop after a prefix of the
commit list, expressed by the claim-side routing of each commit. -/
def changelogStateFor (tm : List (Str × Str)) (r : GitCommit → Str)
    (processed : List GitCommit) : List (Str × List Str) × List Str :=
  ((dedupFirst (tm.map (fun p => p.2))).map (fun n =>
      (n, (processed.filter (fun c => routedSection tm c = some n)).map r)),
   (processed.filter (fun c => routedSection tm c = none)).map r)

theorem dropWhile_eq_nil_forall {p : Char → Bool} :
    ∀ {l : Str}, l.dropWhile p = [] → ∀ x ∈ l, p x = true := by
  intro l
  induction l with
  | nil => intro _ x hx; cases hx
  | cons a as ih =>
    intro h x hx
    rcases List.mem_cons.mp hx with rfl | hx
    · by_cases hpa : p x = true
      · exact hpa
      · rw [List.dropWhile_cons, if_neg hpa] at h; cases h
    · by_cases hpa : p a = true
      · rw [List.dropWhile_cons, if_pos hpa] at h
        exact ih h x hx
      · rw [List.dropWhile_cons, if_neg hpa] at h; cases h

theorem pyStrip_ne_nil {s : Str} {x : Char} (hx : x ∈ s) (hns : isPySpace x = false) :
    pyStrip s ≠ [] := by
  intro h
  unfold pyStrip at h
  rw [List.reverse_eq_nil_iff] at h
  have h2 := dropWhile_eq_nil_forall h
  have hx2 : x ∈ (s.dropWhile isPySpace).reverse ∨ x ∈ s.takeWhile isPySpace := by
    have := List.takeWhile_append_dropWhile (p := isPySpace) (l := s)
    rw [← this] at hx
    rcases List.mem_append.mp hx with h1 | h1
    · exact Or.inr h1
    · exact Or.inl (List.mem_reverse.mpr h1)
  rcases hx2 with h1 | h1
  · rw [h2 x h1] at hns; cases hns
  · have := List.mem_takeWhile_imp h1
    rw [this] at hns; cases hns

theorem splitOnChar_ne_nil (c : Char) (s : Str) : splitOnChar c s ≠ [] := by
  induction s with
  | nil => simp [splitOnChar]
  | cons x xs ih =>
    unfold splitOnChar
    by_cases hx : x = c
    · simp [hx]
    · rw [if_neg hx]
      rcases h : splitOnChar c xs with _ | ⟨hd, tl⟩
      · simp
      · simp

theorem splitOnChar_cons_sep (c : Char) (xs : Str) :
    splitOnChar c (c :: xs) = [] :: splitOnChar c xs := by
  conv_lhs => rw [splitOnChar]
  rw [if_pos rfl]

theorem splitOnChar_cons_head {c x : Char} (hx : ¬x = c) {xs hd : Str} {tl : List Str}
    (hsp : splitOnChar c xs = hd :: tl) :
    splitOnChar c (x :: xs) = (x :: hd) :: tl := by
  conv_lhs => rw [splitOnChar]
  rw [if_neg hx, hsp]

theorem splitOnChar_no_sep {c : Char} : ∀ {s : Str}, c ∉ s → splitOnChar c s = [s] := by
  intro s
  induction s with
  | nil => intro _; rfl
  | cons x xs ih =>
    intro h
    have hx : ¬x = c := by
      intro hh; exact h (by rw [hh]; exact List.mem_cons_self _ _)
    have hxs : c ∉ xs := fun hh => h (List.mem_cons_of_mem _ hh)
    exact splitOnChar_cons_head hx (ih hxs)

theorem splitOnChar_append {c : Char} :
    ∀ {p : Str}, c ∉ p → ∀ (s : Str), splitOnChar c (p ++ c :: s) = p :: splitOnChar c s := by
  intro p
  induction p with
  | nil =>
    intro _ s
    exact splitOnChar_cons_sep c s
  | cons x xs ih =>
    intro h s
    have hx : ¬x = c := by
      intro hh; exact h (by rw [hh]; exact List.mem_cons_self _ _)
    have hxs : c ∉ xs := fun hh => h (List.mem_cons_of_mem _ hh)
    exact splitOnChar_cons_head hx (ih hxs s)

theorem joinWith_cons (sep : Str) (x : Str) {xs : List Str} (h : xs ≠ []) :
    joinWith sep (x :: xs) = x ++ sep ++ joinWith sep xs := by
  cases xs with
  | nil => exact absurd rfl h
  | cons y ys => rfl

theorem splitOnChar_joinWith {c : Char} :
    ∀ {pieces : List Str}, pieces ≠ [] → (∀ p ∈ pieces, c ∉ p) →
      splitOnChar c (joinWith [c] pieces) = pieces := by
  intro pieces
  induction pieces with
  | nil => intro h _; exact absurd rfl h
  | cons p ps ih =>
    intro _ hall
    cases ps with
    | nil =>
      show splitOnChar c (joinWith [c] [p]) = [p]
      have : joinWith [c] [p] = p := rfl
      rw [this]
      exact splitOnChar_no_sep (hall p (List.mem_cons_self _ _))
    | cons q qs =>
      rw [joinWith_cons _ _ (by simp)]
      have hp : c ∉ p := hall p (List.mem_cons_self _ _)
      have : p ++ [c] ++ joinWith [c] (q :: qs) = p ++ c :: joinWith [c] (q :: qs) := by
        simp
      rw [this, splitOnChar_append hp]
      rw [ih (by simp) (fun x hx => hall x (List.mem_cons_of_mem _ hx))]

theorem splitOnChar_joinWith_front {c : Char} :
    ∀ {front : List Str}, (∀ p ∈ front, c ∉ p) → ∀ {mid : Str}, c ∉ mid →
      ∀ (rest : List Str), ∃ tail,
        splitOnChar c (joinWith [c] (front ++ mid :: rest)) = front ++ mid :: tail := by
  intro front
  induction front with
  | nil =>
    intro _ mid hmid rest
    cases rest with
    | nil =>
      refine ⟨[], ?_⟩
      show splitOnChar c (joinWith [c] [mid]) = [mid]
      exact splitOnChar_no_sep hmid
    | cons r rs =>
      refine ⟨splitOnChar c (joinWith [c] (r :: rs)), ?_⟩
      show splitOnChar c (joinWith [c] (mid :: r :: rs)) = mid :: _
      rw [joinWith_cons _ _ (by simp)]
      have : mid ++ [c] ++ joinWith [c] (r :: rs) = mid ++ c :: joinWith [c] (r :: rs) := by
        simp
      rw [this, splitOnChar_append hmid]
  | cons f fs ih =>
    intro hall mid hmid rest
    have hf : c ∉ f := hall f (List.mem_cons_self _ _)
    obtain ⟨tail, htail⟩ := ih (fun x hx => hall x (List.mem_cons_of_mem _ hx)) hmid rest
    refine ⟨tail, ?_⟩
    show splitOnChar c (joinWith [c] (f :: (fs ++ mid :: rest))) = f :: (fs ++ mid :: tail)
    rw [joinWith_cons _ _ (by simp), List.append_assoc]
    have : f ++ ([c] ++ joinWith [c] (fs ++ mid :: rest)) =
        f ++ c :: joinWith [c] (fs ++ mid :: rest) := by simp
    rw [this, splitOnChar_append hf, htail]

theorem lowerLevelNames_clean :
    ∀ n ∈ lowerLevelNames, pyStrip n = n ∧ ':' ∉ n ∧ ',' ∉ n := by decide

theorem except_bind_ok {α β : Type} (a : α) (f : α → Except String β) :
    (Except.ok a : Except String α) >>= f = f a := rfl

theorem collectLoop_cons_entry {t l : Str} (rest : List Str) (acc : List (Str × List Str))
    (ht : pyStrip t = t) (htc : ':' ∉ t) (hl : l ∈ lowerLevelNames) :
    collectLoop ((t ++ ':' :: l) :: rest) acc =
      (check_no_duplicate_commit_type acc t l) >>= fun _ =>
        collectLoop rest (setdefaultAppend acc l t) := by
  have hmem : ':' ∈ t ++ ':' :: l := by simp
  have hstrip := pyStrip_ne_nil hmem (by decide)
  obtain ⟨hls, hlc, _⟩ := lowerLevelNames_clean l hl
  have hsplit : splitOnChar ':' (t ++ ':' :: l) = [t, l] := by
    rw [splitOnChar_append htc, splitOnChar_no_sep hlc]
  conv_lhs => rw [collectLoop]
  rw [if_neg hstrip]
  rw [check_mapping_format, if_pos hmem, hsplit]
  rw [except_bind_ok]
  rw [show unpack2 [t, l] = .ok (t, l) from rfl, except_bind_ok]
  show (check_valid_level l (t ++ ':' :: l)) >>= _ = _
  rw [check_valid_level, hls, if_pos hl, except_bind_ok]
  congr 1
  funext u
  rw [ht]

theorem check_no_duplicate_ok {acc : List (Str × List Str)} {t : Str} (l : Str)
    (h : ∀ p ∈ acc, pyStrip t ∉ p.2) :
    check_no_duplicate_commit_type acc t l = .ok () := by
  induction acc with
  | nil => rfl
  | cons p rest ih =>
    rw [check_no_duplicate_commit_type]
    rw [if_neg (h p (List.mem_cons_self _ _))]
    exact ih (fun q hq => h q (List.mem_cons_of_mem _ hq))

theorem mem_setdefaultAppend_types {x l t : Str} :
    ∀ {acc : List (Str × List Str)}, (∀ p ∈ acc, x ∉ p.2) → x ≠ t →
      ∀ p ∈ setdefaultAppend acc l t, x ∉ p.2 := by
  intro acc
  induction acc with
  | nil =>
    intro _ hxt p hp
    rw [setdefaultAppend] at hp
    rcases List.mem_singleton.mp hp with rfl
    simp [hxt]
  | cons q rest ih =>
    intro hall hxt p hp
    rw [setdefaultAppend] at hp
    by_cases hq : q.1 = l
    · rw [if_pos hq] at hp
      rcases List.mem_cons.mp hp with rfl | hp
      · intro hmem
        rcases List.mem_append.mp hmem with h1 | h1
        · exact hall q (List.mem_cons_self _ _) h1
        · exact hxt (List.mem_singleton.mp h1)
      · exact hall p (List.mem_cons_of_mem _ hp)
    · rw [if_neg hq] at hp
      rcases List.mem_cons.mp hp with rfl | hp
      · exact hall p (List.mem_cons_self _ _)
      · exact ih (fun r hr => hall r (List.mem_cons_of_mem _ hr)) hxt p hp

theorem collectLoop_entries :
    ∀ (entries : List (Str × Str)) (acc : List (Str × List Str)),
      (∀ e ∈ entries, pyStrip e.1 = e.1 ∧ ':' ∉ e.1) →
      (∀ e ∈ entries, e.2 ∈ lowerLevelNames) →
      (∀ e ∈ entries, ∀ p ∈ acc, e.1 ∉ p.2) →
      entries.Pairwise (fun a b => a.1 ≠ b.1) →
      collectLoop (entries.map (fun e => e.1 ++ ':' :: e.2)) acc =
        .ok (entries.foldl (fun a e => setdefaultAppend a e.2 e.1) acc) := by
  intro entries
  induction entries with
  | nil => intro acc _ _ _ _; rfl
  | cons e rest ih =>
    intro acc hclean hlvl hfresh hpw
    obtain ⟨hes, hec⟩ := hclean e (List.mem_cons_self _ _)
    have hel := hlvl e (List.mem_cons_self _ _)
    rw [List.map_cons, collectLoop_cons_entry _ _ hes hec hel]
    rw [check_no_duplicate_ok e.2 (by rw [hes]; exact hfresh e (List.mem_cons_self _ _))]
    show collectLoop _ (setdefaultAppend acc e.2 e.1) = _
    rw [List.pairwise_cons] at hpw
    rw [ih (setdefaultAppend acc e.2 e.1)
      (fun e' he' => hclean e' (List.mem_cons_of_mem _ he'))
      (fun e' he' => hlvl e' (List.mem_cons_of_mem _ he'))
      (fun e' he' => mem_setdefaultAppend_types
        (fun p hp => hfresh e' (List.mem_cons_of_mem _ he') p hp)
        (fun hh => (hpw.1 e' he' hh.symm).elim))
      hpw.2]
    rfl

theorem mem_dedupFirstAux {α : Type} [DecidableEq α] (x : α) :
    ∀ (xs seen : List α), x ∈ dedupFirstAux seen xs ↔ (x ∈ xs ∧ x ∉ seen) := by
  intro xs
  induction xs with
  | nil => intro seen; simp [dedupFirstAux]
  | cons y ys ih =>
    intro seen
    rw [dedupFirstAux]
    by_cases hy : y ∈ seen
    · rw [if_pos hy, ih]
      constructor
      · rintro ⟨h1, h2⟩; exact ⟨List.mem_cons_of_mem _ h1, h2⟩
      · rintro ⟨h1, h2⟩
        rcases List.mem_cons.mp h1 with rfl | h1
        · exact absurd hy h2
        · exact ⟨h1, h2⟩
    · rw [if_neg hy]
      constructor
      · intro h
        rcases List.mem_cons.mp h with rfl | h
        · exact ⟨List.mem_cons_self _ _, hy⟩
        · obtain ⟨h1, h2⟩ := (ih _).mp h
          exact ⟨List.mem_cons_of_mem _ h1, fun hc => h2 (List.mem_cons_of_mem _ hc)⟩
      · rintro ⟨h1, h2⟩
        rcases List.mem_cons.mp h1 with rfl | h1
        · exact List.mem_cons_self _ _
        · by_cases hxy : x = y
          · subst hxy; exact List.mem_cons_self _ _
          · refine List.mem_cons_of_mem _ ((ih _).mpr ⟨h1, ?_⟩)
            intro hc
            rcases List.mem_cons.mp hc with hc | hc
            · exact hxy hc
            · exact h2 hc

theorem nodup_dedupFirstAux {α : Type} [DecidableEq α] :
    ∀ (xs seen : List α), (dedupFirstAux seen xs).Nodup := by
  intro xs
  induction xs with
  | nil => intro seen; simp [dedupFirstAux]
  | cons y ys ih =>
    intro seen
    rw [dedupFirstAux]
    by_cases hy : y ∈ seen
    · rw [if_pos hy]; exact ih seen
    · rw [if_neg hy]
      refine List.nodup_cons.mpr ⟨?_, ih _⟩
      intro hc
      exact ((mem_dedupFirstAux y ys (y :: seen)).mp hc).2 (List.mem_cons_self _ _)

theorem mem_dedupFirst {α : Type} [DecidableEq α] (x : α) (xs : List α) :
    x ∈ dedupFirst xs ↔ x ∈ xs := by
  rw [dedupFirst, mem_dedupFirstAux]
  simp

theorem nodup_dedupFirst {α : Type} [DecidableEq α] (xs : List α) :
    (dedupFirst xs).Nodup := nodup_dedupFirstAux xs []

theorem dedupFirstAux_append_singleton {α : Type} [DecidableEq α] (x : α) :
    ∀ (xs seen : List α), dedupFirstAux seen (xs ++ [x]) =
      dedupFirstAux seen xs ++ (if x ∈ seen ∨ x ∈ xs then [] else [x]) := by
  intro xs
  induction xs with
  | nil =>
    intro seen
    by_cases hx : x ∈ seen
    · simp [dedupFirstAux, hx]
    · simp [dedupFirstAux, hx]
  | cons y ys ih =>
    intro seen
    show dedupFirstAux seen (y :: (ys ++ [x])) = _
    simp only [dedupFirstAux]
    by_cases hy : y ∈ seen
    · rw [if_pos hy, if_pos hy, ih]
      have hcond : (x ∈ seen ∨ x ∈ ys) = (x ∈ seen ∨ x ∈ y :: ys) := by
        apply propext
        constructor
        · rintro (h | h)
          · exact Or.inl h
          · exact Or.inr (List.mem_cons_of_mem _ h)
        · rintro (h | h)
          · exact Or.inl h
          · rcases List.mem_cons.mp h with rfl | h
            · exact Or.inl hy
            · exact Or.inr h
      have hif := if_congr (iff_of_eq hcond) (rfl : ([] : List α) = [])
        (rfl : [x] = [x])
      rw [hif]
    · rw [if_neg hy, if_neg hy, ih, List.cons_append]
      have hcond : (x ∈ y :: seen ∨ x ∈ ys) = (x ∈ seen ∨ x ∈ y :: ys) := by
        apply propext
        constructor
        · rintro (h | h)
          · rcases List.mem_cons.mp h with rfl | h
            · exact Or.inr (List.mem_cons_self _ _)
            · exact Or.inl h
          · exact Or.inr (List.mem_cons_of_mem _ h)
        · rintro (h | h)
          · exact Or.inl (List.mem_cons_of_mem _ h)
          · rcases List.mem_cons.mp h with rfl | h
            · exact Or.inl (List.mem_cons_self _ _)
            · exact Or.inr h
      have hif := if_congr (iff_of_eq hcond) (rfl : ([] : List α) = [])
        (rfl : [x] = [x])
      rw [hif]

theorem setdefaultAppend_map_mem (f : Str → List Str) (t : Str) :
    ∀ {names : List Str} {l : Str}, names.Nodup → l ∈ names →
      setdefaultAppend (names.map fun n => (n, f n)) l t =
        names.map (fun n => (n, if n = l then f n ++ [t] else f n)) := by
  intro names
  induction names with
  | nil => intro l _ hl; cases hl
  | cons m ms ih =>
    intro l hnd hl
    simp only [List.map_cons, setdefaultAppend]
    by_cases hm : m = l
    · rw [if_pos hm, if_pos hm]
      subst hm
      congr 1
      have hm_not : m ∉ ms := (List.nodup_cons.mp hnd).1
      apply List.map_congr_left
      intro a ha
      have hne : ¬a = m := fun hc => hm_not (hc ▸ ha)
      rw [if_neg hne]
    · rw [if_neg hm, if_neg hm]
      congr 1
      have hl' : l ∈ ms := by
        rcases List.mem_cons.mp hl with rfl | h
        · exact absurd rfl hm
        · exact h
      exact ih (List.nodup_cons.mp hnd).2 hl'

theorem setdefaultAppend_map_not_mem (f : Str → List Str) (t : Str) :
    ∀ {names : List Str} {l : Str}, l ∉ names →
      setdefaultAppend (names.map fun n => (n, f n)) l t =
        names.map (fun n => (n, f n)) ++ [(l, [t])] := by
  intro names
  induction names with
  | nil => intro l _; rfl
  | cons m ms ih =>
    intro l hl
    simp only [List.map_cons, setdefaultAppend]
    have hm : ¬m = l := fun hc => hl (hc ▸ List.mem_cons_self _ _)
    rw [if_neg hm, List.cons_append]
    congr 1
    exact ih (fun hc => hl (List.mem_cons_of_mem _ hc))

theorem groupSpec_append (es : List (Str × Str)) (t l : Str) :
    groupSpec (es ++ [(t, l)]) = setdefaultAppend (groupSpec es) l t := by
  unfold groupSpec
  rw [List.map_append]
  rw [show (([(t, l)] : List (Str × Str)).map (fun e => e.2)) = [l] from rfl]
  rw [show (dedupFirst (es.map (fun e => e.2) ++ [l]) : List Str) =
    dedupFirstAux [] (es.map (fun e => e.2) ++ [l]) from rfl]
  rw [dedupFirstAux_append_singleton]
  by_cases hl : l ∈ es.map (fun e => e.2)
  · rw [if_pos (Or.inr hl), List.append_nil]
    rw [setdefaultAppend_map_mem _ _ (nodup_dedupFirst _) ((mem_dedupFirst _ _).mpr hl)]
    apply List.map_congr_left
    intro n _
    rw [List.filterMap_append]
    have hsingle : ([(t, l)] : List (Str × Str)).filterMap
        (fun e => if e.2 = n then some e.1 else none) = if l = n then [t] else [] := by
      by_cases hln : l = n
      · simp [hln]
      · simp [hln]
    rw [hsingle]
    by_cases hln : n = l
    · subst hln; rw [if_pos rfl, if_pos rfl]
    · rw [if_neg hln, if_neg (fun hc => hln hc.symm), List.append_nil]
  · rw [if_neg (by simp [hl])]
    have hl' : l ∉ dedupFirst (es.map (fun e => e.2)) :=
      fun hc => hl ((mem_dedupFirst _ _).mp hc)
    rw [setdefaultAppend_map_not_mem _ _ hl', List.map_append]
    congr 1
    · apply List.map_congr_left
      intro n hn
      have hn' : n ∈ es.map (fun e => e.2) := (mem_dedupFirst _ _).mp hn
      have hln : ¬l = n := fun hc => hl (hc ▸ hn')
      rw [List.filterMap_append]
      have hsingle : ([(t, l)] : List (Str × Str)).filterMap
          (fun e => if e.2 = n then some e.1 else none) = [] := by
        simp [hln]
      rw [hsingle, List.append_nil]
    · have hnilfm : es.filterMap (fun e => if e.2 = l then some e.1 else none) = [] := by
        rw [List.filterMap_eq_nil_iff]
        intro e he
        have : ¬e.2 = l := by
          intro hc
          exact hl (List.mem_map.mpr ⟨e, he, hc⟩)
        rw [if_neg this]
      simp [List.filterMap_append, hnilfm]

theorem foldl_setdefault_eq_groupSpec :
    ∀ (entries : List (Str × Str)),
      entries.foldl (fun a e => setdefaultAppend a e.2 e.1) [] = groupSpec entries := by
  intro entries
  induction entries using List.reverseRecOn with
  | nil => rfl
  | append_singleton es e ih =>
    rcases e with ⟨t, l⟩
    rw [List.foldl_append, ih, List.foldl_cons, List.foldl_nil, groupSpec_append]

theorem mem_groupSpec_types (entries : List (Str × Str)) (ty : Str) :
    (∃ p ∈ groupSpec entries, ty ∈ p.2) ↔ ty ∈ entries.map (fun e => e.1) := by
  unfold groupSpec
  constructor
  · rintro ⟨p, hp, hty⟩
    obtain ⟨n, _, rfl⟩ := List.mem_map.mp hp
    obtain ⟨e, he, hfe⟩ := List.mem_filterMap.mp hty
    by_cases h2 : e.2 = n
    · rw [if_pos h2] at hfe
      cases hfe
      exact List.mem_map.mpr ⟨e, he, rfl⟩
    · rw [if_neg h2] at hfe; cases hfe
  · intro hty
    obtain ⟨e, he, rfl⟩ := List.mem_map.mp hty
    refine ⟨(e.2, entries.filterMap (fun e2 => if e2.2 = e.2 then some e2.1 else none)),
      ?_, ?_⟩
    · exact List.mem_map.mpr
        ⟨e.2, (mem_dedupFirst _ _).mpr (List.mem_map.mpr ⟨e, he, rfl⟩), rfl⟩
    · exact List.mem_filterMap.mpr ⟨e, he, by rw [if_pos rfl]⟩

/-- C2: joining valid type:level entries (levels from the enumeration, no
type repeated) with commas parses successfully into the table grouping the
types by level, with the union of the per-level buckets being exactly the
set of input types. -/
theorem collect_bump_mapping_roundtrip (entries : List (Str × Str))
    (hne : entries ≠ [])
    (hclean : ∀ e ∈ entries, pyStrip e.1 = e.1 ∧ ':' ∉ e.1 ∧ ',' ∉ e.1)
    (hlvl : ∀ e ∈ entries, e.2 ∈ lowerLevelNames)
    (hdist : entries.Pairwise (fun a b => a.1 ≠ b.1)) :
    collect_bump_mapping (joinWith [','] (entries.map (fun e => e.1 ++ ':' :: e.2)))
      = .ok (groupSpec entries) ∧
    (∀ ty, (∃ p ∈ groupSpec entries, ty ∈ p.2) ↔ ty ∈ entries.map (fun e => e.1)) := by
  refine ⟨?_, fun ty => mem_groupSpec_types entries ty⟩
  have hpieces_comma : ∀ p ∈ entries.map (fun e => e.1 ++ ':' :: e.2), ',' ∉ p := by
    intro p hp hc
    obtain ⟨e, he, rfl⟩ := List.mem_map.mp hp
    rcases List.mem_append.mp hc with h1 | h1
    · exact (hclean e he).2.2 h1
    · rcases List.mem_cons.mp h1 with h2 | h2
      · cases h2
      · exact (lowerLevelNames_clean e.2 (hlvl e he)).2.2 h2
  cases entries with
  | nil => exact absurd rfl hne
  | cons e es =>
    have hcolon_first : ':' ∈ e.1 ++ ':' :: e.2 := by simp
    have hcolon_mem : ':' ∈ joinWith [','] ((e :: es).map (fun e2 => e2.1 ++ ':' :: e2.2)) := by
      rw [List.map_cons]
      cases hm : es.map (fun e2 => e2.1 ++ ':' :: e2.2) with
      | nil => exact hcolon_first
      | cons q qs =>
        rw [joinWith_cons _ _ (by simp)]
        exact List.mem_append.mpr (Or.inl (List.mem_append.mpr (Or.inl hcolon_first)))
    have hstrip := pyStrip_ne_nil hcolon_mem (by decide)
    rw [collect_bump_mapping, if_neg hstrip]
    rw [splitOnChar_joinWith (by simp) hpieces_comma]
    rw [collectLoop_entries (e :: es) []
      (fun e2 he2 => ⟨(hclean e2 he2).1, (hclean e2 he2).2.1⟩)
      hlvl
      (fun e2 _ p hp => by cases hp)
      hdist]
    rw [foldl_setdefault_eq_groupSpec]

/-- Witness for C2 at entries feat to minor and fix to patch. -/
theorem collect_bump_mapping_roundtrip_witness :
    collect_bump_mapping
        (joinWith [','] (([(("feat".data : Str), ("minor".data : Str)),
          (("fix".data : Str), ("patch".data : Str))]).map (fun e => e.1 ++ ':' :: e.2)))
      = .ok (groupSpec [(("feat".data : Str), ("minor".data : Str)),
          (("fix".data : Str), ("patch".data : Str))]) ∧
    (∀ ty, (∃ p ∈ groupSpec [(("feat".data : Str), ("minor".data : Str)),
          (("fix".data : Str), ("patch".data : Str))], ty ∈ p.2) ↔
        ty ∈ ([(("feat".data : Str), ("minor".data : Str)),
          (("fix".data : Str), ("patch".data : Str))]).map (fun e => e.1)) :=
  collect_bump_mapping_roundtrip _ (by decide) (by decide) (by decide) (by decide)

theorem except_bind_error {α β : Type} (e : String) (f : α → Except String β) :
    (Except.error e : Except String α) >>= f = .error e := rfl

theorem mem_joinWith {sep : Str} {x : Char} :
    ∀ {pieces : List Str} {p : Str}, p ∈ pieces → x ∈ p → x ∈ joinWith sep pieces := by
  intro pieces
  induction pieces with
  | nil => intro p hp; cases hp
  | cons q qs ih =>
    intro p hp hx
    cases qs with
    | nil =>
      rcases List.mem_cons.mp hp with rfl | hp
      · exact hx
      · cases hp
    | cons r rs =>
      rw [joinWith_cons _ _ (by simp)]
      rcases List.mem_cons.mp hp with rfl | hp
      · exact List.mem_append.mpr (Or.inl (List.mem_append.mpr (Or.inl hx)))
      · exact List.mem_append.mpr (Or.inr (ih hp hx))

theorem pairwise_type_unique :
    ∀ {pre : List (Str × Str)}, pre.Pairwise (fun a b => a.1 ≠ b.1) →
      ∀ {e1 e2 : Str × Str}, e1 ∈ pre → e2 ∈ pre → e1.1 = e2.1 → e1 = e2 := by
  intro pre
  induction pre with
  | nil => intro _ e1 e2 h; cases h
  | cons q qs ih =>
    intro hpw e1 e2 h1 h2 heq
    rw [List.pairwise_cons] at hpw
    rcases List.mem_cons.mp h1 with he1 | h1
    · rcases List.mem_cons.mp h2 with he2 | h2
      · rw [he1, he2]
      · rw [he1] at heq
        exact absurd heq (hpw.1 e2 h2)
    · rcases List.mem_cons.mp h2 with he2 | h2
      · rw [he2] at heq
        exact absurd heq.symm (hpw.1 e1 h1)
      · exact ih hpw.2 h1 h2 heq

theorem mem_groupSpec_bucket_iff {pre : List (Str × Str)} {t l1 : Str}
    (hdist : pre.Pairwise (fun a b => a.1 ≠ b.1)) (hmem : (t, l1) ∈ pre) :
    ∀ p ∈ groupSpec pre, (t ∈ p.2 ↔ p.1 = l1) := by
  intro p hp
  unfold groupSpec at hp
  obtain ⟨n, _, rfl⟩ := List.mem_map.mp hp
  constructor
  · intro htm
    obtain ⟨e, he, hfe⟩ := List.mem_filterMap.mp htm
    by_cases h2 : e.2 = n
    · rw [if_pos h2] at hfe
      injection hfe with h3
      have he2 : e = (t, l1) := pairwise_type_unique hdist he hmem (by rw [h3])
      show n = l1
      rw [← h2, he2]
    · rw [if_neg h2] at hfe; cases hfe
  · intro hn1
    show t ∈ _
    refine List.mem_filterMap.mpr ⟨(t, l1), hmem, ?_⟩
    have : ((t, l1) : Str × Str).2 = n := hn1.symm
    rw [if_pos this]

theorem check_no_duplicate_error {t l1 : Str} (l : Str) :
    ∀ {acc : List (Str × List Str)},
      (∀ p ∈ acc, (pyStrip t ∈ p.2 ↔ p.1 = l1)) → (∃ p ∈ acc, p.1 = l1) →
      check_no_duplicate_commit_type acc t l = .error (duplicateTypeMsg t l1 l) := by
  intro acc
  induction acc with
  | nil => rintro _ ⟨p, hp, _⟩; cases hp
  | cons q rest ih =>
    intro hiff hex
    rw [check_no_duplicate_commit_type]
    by_cases hq : q.1 = l1
    · rw [if_pos ((hiff q (List.mem_cons_self _ _)).mpr hq), hq]
    · rw [if_neg (fun hc => hq ((hiff q (List.mem_cons_self _ _)).mp hc))]
      apply ih (fun p hp => hiff p (List.mem_cons_of_mem _ hp))
      obtain ⟨p, hp, hp1⟩ := hex
      rcases List.mem_cons.mp hp with rfl | hp
      · exact absurd hp1 hq
      · exact ⟨p, hp, hp1⟩

theorem collectLoop_entries_suffix :
    ∀ (entries : List (Str × Str)) (suffix : List Str) (acc : List (Str × List Str)),
      (∀ e ∈ entries, pyStrip e.1 = e.1 ∧ ':' ∉ e.1) →
      (∀ e ∈ entries, e.2 ∈ lowerLevelNames) →
      (∀ e ∈ entries, ∀ p ∈ acc, e.1 ∉ p.2) →
      entries.Pairwise (fun a b => a.1 ≠ b.1) →
      collectLoop (entries.map (fun e => e.1 ++ ':' :: e.2) ++ suffix) acc =
        collectLoop suffix (entries.foldl (fun a e => setdefaultAppend a e.2 e.1) acc) := by
  intro entries
  induction entries with
  | nil => intro suffix acc _ _ _ _; rw [List.map_nil, List.nil_append, List.foldl_nil]
  | cons e rest ih =>
    intro suffix acc hclean hlvl hfresh hpw
    obtain ⟨hes, hec⟩ := hclean e (List.mem_cons_self _ _)
    have hel := hlvl e (List.mem_cons_self _ _)
    rw [List.map_cons, List.cons_append, collectLoop_cons_entry _ _ hes hec hel]
    rw [check_no_duplicate_ok e.2 (by rw [hes]; exact hfresh e (List.mem_cons_self _ _))]
    rw [List.pairwise_cons] at hpw
    rw [except_bind_ok]
    rw [ih suffix (setdefaultAppend acc e.2 e.1)
      (fun e' he' => hclean e' (List.mem_cons_of_mem _ he'))
      (fun e' he' => hlvl e' (List.mem_cons_of_mem _ he'))
      (fun e' he' => mem_setdefaultAppend_types
        (fun p hp => hfresh e' (List.mem_cons_of_mem _ he') p hp)
        (fun hh => (hpw.1 e' he' hh.symm).elim))
      hpw.2]
    rfl

/-- C4: a mapping string that assigns the same commit type to two levels is
rejected with the duplicate-type error naming the type and both levels; the
earlier assignment never silently wins. -/
theorem collect_bump_mapping_duplicate_conflict
    (pre : List (Str × Str)) (t l1 l2 : Str) (rest : List Str)
    (hclean : ∀ e ∈ pre, pyStrip e.1 = e.1 ∧ ':' ∉ e.1 ∧ ',' ∉ e.1)
    (hlvl : ∀ e ∈ pre, e.2 ∈ lowerLevelNames)
    (hdist : pre.Pairwise (fun a b => a.1 ≠ b.1))
    (ht : pyStrip t = t) (htc : ':' ∉ t) (htcm : ',' ∉ t)
    (hl2 : l2 ∈ lowerLevelNames)
    (hmem : (t, l1) ∈ pre) :
    collect_bump_mapping (joinWith [',']
        (pre.map (fun e => e.1 ++ ':' :: e.2) ++ (t ++ ':' :: l2) :: rest))
      = .error (duplicateTypeMsg t l1 l2) := by
  have hfront : ∀ p ∈ pre.map (fun e => e.1 ++ ':' :: e.2), ',' ∉ p := by
    intro p hp hc
    obtain ⟨e, he, rfl⟩ := List.mem_map.mp hp
    rcases List.mem_append.mp hc with h1 | h1
    · exact (hclean e he).2.2 h1
    · rcases List.mem_cons.mp h1 with h2 | h2
      · cases h2
      · exact (lowerLevelNames_clean e.2 (hlvl e he)).2.2 h2
  obtain ⟨hl2s, hl2c, hl2cm⟩ := lowerLevelNames_clean l2 hl2
  have hmid : ',' ∉ t ++ ':' :: l2 := by
    intro hc
    rcases List.mem_append.mp hc with h1 | h1
    · exact htcm h1
    · rcases List.mem_cons.mp h1 with h2 | h2
      · cases h2
      · exact hl2cm h2
  obtain ⟨tail, hsplit⟩ := splitOnChar_joinWith_front hfront hmid rest
  have hmidmem : (t ++ ':' :: l2) ∈ pre.map (fun e => e.1 ++ ':' :: e.2)
      ++ (t ++ ':' :: l2) :: rest := List.mem_append.mpr (Or.inr (List.mem_cons_self _ _))
  have hcolon : ':' ∈ joinWith [',']
      (pre.map (fun e => e.1 ++ ':' :: e.2) ++ (t ++ ':' :: l2) :: rest) :=
    mem_joinWith hmidmem (by simp)
  have hstrip := pyStrip_ne_nil hcolon (by decide)
  rw [collect_bump_mapping, if_neg hstrip, hsplit]
  rw [collectLoop_entries_suffix pre ((t ++ ':' :: l2) :: tail) []
    (fun e he => ⟨(hclean e he).1, (hclean e he).2.1⟩) hlvl
    (fun e _ p hp => by cases hp) hdist]
  rw [foldl_setdefault_eq_groupSpec]
  rw [collectLoop_cons_entry _ _ ht htc hl2]
  have hiff : ∀ p ∈ groupSpec pre, (pyStrip t ∈ p.2 ↔ p.1 = l1) := by
    rw [ht]
    exact mem_groupSpec_bucket_iff hdist hmem
  have hex : ∃ p ∈ groupSpec pre, p.1 = l1 := by
    refine ⟨(l1, pre.filterMap (fun e2 => if e2.2 = l1 then some e2.1 else none)),
      ?_, rfl⟩
    unfold groupSpec
    exact List.mem_map.mpr
      ⟨l1, (mem_dedupFirst _ _).mpr (List.mem_map.mpr ⟨(t, l1), hmem, rfl⟩), rfl⟩
  rw [check_no_duplicate_error l2 hiff hex]
  rfl

/-- Witness for C4: parsing feat:minor,feat:patch fails citing feat mapped
to both minor and patch. -/
theorem collect_bump_mapping_duplicate_conflict_witness :
    collect_bump_mapping (joinWith [',']
        (([(("feat".data : Str), ("minor".data : Str))]).map (fun e => e.1 ++ ':' :: e.2)
          ++ ("feat".data ++ ':' :: "patch".data) :: []))
      = .error (duplicateTypeMsg "feat".data "minor".data "patch".data) :=
  collect_bump_mapping_duplicate_conflict _ _ _ _ _
    (by decide) (by decide) (by decide) (by decide) (by decide) (by decide) (by decide)
    (by decide)

theorem length_splitOnChar (c : Char) :
    ∀ (s : Str), (splitOnChar c s).length = s.count c + 1 := by
  intro s
  induction s with
  | nil => rfl
  | cons x xs ih =>
    by_cases hx : x = c
    · subst hx
      rw [splitOnChar_cons_sep, List.length_cons, ih, List.count_cons_self]
    · rcases hsp : splitOnChar c xs with _ | ⟨hd, tl⟩
      · exact absurd hsp (splitOnChar_ne_nil c xs)
      · rw [splitOnChar_cons_head hx hsp, List.length_cons]
        rw [hsp, List.length_cons] at ih
        rw [List.count_cons_of_ne (fun hh => hx hh.symm), ih]

theorem unpack2_error_of_length :
    ∀ (parts : List Str), 3 ≤ parts.length → unpack2 parts = .error unpackMsg := by
  intro parts h
  match parts with
  | [] => simp at h
  | [_] => simp at h
  | [_, _] => simp at h
  | _ :: _ :: _ :: _ => rfl

/-- C5 (amended): an input whose trimmed form is empty is rejected with the
cannot-be-empty error; a comma-separated entry that is blank after trimming
is skipped; an entry with no colon fails with the ValueError citing the
entry and the expected type:level form; an entry with two or more colons
fails with the generic tuple-unpacking ValueError, which does not cite the
entry. -/
theorem collect_bump_mapping_entry_errors :
    (∀ s : Str, pyStrip s = [] → collect_bump_mapping s = .error emptyMappingMsg) ∧
    (∀ (m : Str) (rest : List Str) (acc : List (Str × List Str)), pyStrip m = [] →
        collectLoop (m :: rest) acc = collectLoop rest acc) ∧
    (∀ (m : Str) (rest : List Str) (acc : List (Str × List Str)),
        pyStrip m ≠ [] → ':' ∉ m →
        collectLoop (m :: rest) acc = .error (invalidMappingMsg m)) ∧
    (∀ (m : Str) (rest : List Str) (acc : List (Str × List Str)),
        pyStrip m ≠ [] → 2 ≤ m.count ':' →
        collectLoop (m :: rest) acc = .error unpackMsg) := by
  refine ⟨?_, ?_, ?_, ?_⟩
  · intro s hs
    rw [collect_bump_mapping, if_pos hs]
  · intro m rest acc hm
    conv_lhs => rw [collectLoop]
    rw [if_pos hm]
  · intro m rest acc hm hcolon
    conv_lhs => rw [collectLoop]
    rw [if_neg hm, check_mapping_format, if_neg hcolon]
    rfl
  · intro m rest acc hm hcount
    have hcolon : ':' ∈ m := List.count_pos_iff.mp (by omega)
    conv_lhs => rw [collectLoop]
    rw [if_neg hm, check_mapping_format, if_pos hcolon, except_bind_ok]
    rw [unpack2_error_of_length _ (by rw [length_splitOnChar]; omega)]
    rfl

/-- Witness for C5 at an all-blank input, a blank entry, a colon-free entry
and a double-colon entry. -/
theorem collect_bump_mapping_entry_errors_witness :
    collect_bump_mapping "   ".data = .error emptyMappingMsg ∧
    collectLoop ["".data, "feat:minor".data] [] = collectLoop ["feat:minor".data] [] ∧
    collectLoop ["a-b".data] [] = .error (invalidMappingMsg "a-b".data) ∧
    collectLoop ["feat:minor:x".data] [] = .error unpackMsg :=
  ⟨collect_bump_mapping_entry_errors.1 _ (by decide),
   collect_bump_mapping_entry_errors.2.1 _ _ _ (by decide),
   collect_bump_mapping_entry_errors.2.2.1 _ _ _ (by decide) (by decide),
   collect_bump_mapping_entry_errors.2.2.2 _ _ _ (by decide) (by decide)⟩

/-- Counterexample for C5: the entry feat:minor:x has more than one colon;
the failure is the generic unpacking ValueError, not a ValidationError
citing the malformed entry and the expected form. -/
theorem collect_bump_mapping_multicolon_counterexample :
    collect_bump_mapping "feat:minor:x".data = .error unpackMsg ∧
    unpackMsg ≠ invalidMappingMsg "feat:minor:x".data := by
  constructor
  · rfl
  · decide

/-- C6 (amended): the trimmed level token is validated case-sensitively
against the nine lowercase level names: any entry whose level is not
exactly one of them, including an uppercase variant of one, fails with the
invalid-level error citing the level and the entry, while an exact
lowercase level is accepted. -/
theorem check_level_case_sensitive :
    (∀ (t l : Str) (rest : List Str) (acc : List (Str × List Str)),
        ':' ∉ t → ':' ∉ l → pyStrip (t ++ ':' :: l) ≠ [] →
        pyStrip l ∉ lowerLevelNames →
        collectLoop ((t ++ ':' :: l) :: rest) acc =
          .error (invalidLevelMsg l (t ++ ':' :: l))) ∧
    collect_bump_mapping "feat:minor".data =
      .ok [("minor".data, ["feat".data])] := by
  constructor
  · intro t l rest acc htc hlc hstrip hlvl
    have hcolon : ':' ∈ t ++ ':' :: l := by simp
    have hsplit : splitOnChar ':' (t ++ ':' :: l) = [t, l] := by
      rw [splitOnChar_append htc, splitOnChar_no_sep hlc]
    conv_lhs => rw [collectLoop]
    rw [if_neg hstrip, check_mapping_format, if_pos hcolon, except_bind_ok, hsplit]
    rw [show unpack2 [t, l] = .ok (t, l) from rfl, except_bind_ok]
    show (check_valid_level l (t ++ ':' :: l)) >>= _ = _
    rw [check_valid_level, if_neg hlvl]
    rfl
  · rfl

/-- Witness for C6 at the entry feat:MINOR, whose level differs from minor
only in letter case and is rejected. -/
theorem check_level_case_sensitive_witness :
    collectLoop (("feat".data ++ ':' :: "MINOR".data) :: []) [] =
      .error (invalidLevelMsg "MINOR".data ("feat".data ++ ':' :: "MINOR".data)) :=
  check_level_case_sensitive.1 _ _ _ _ (by decide) (by decide) (by decide) (by decide)

/-- Counterexample for C6: feat:MINOR differs from feat:minor only in the
letter case of the level and is rejected, refuting case-insensitive
validation. -/
theorem check_level_case_insensitive_counterexample :
    collect_bump_mapping "feat:MINOR".data =
      .error (invalidLevelMsg "MINOR".data "feat:MINOR".data) := by rfl

theorem except_pure_bind {α β : Type} (a : α) (f : α → Except String β) :
    (pure a : Except String α) >>= f = f a := rfl

theorem matchesLevel_append_singleton (processed : List GitCommit) (c : GitCommit)
    (mapping : List (Str × List Str)) (L : Str) :
    MatchesLevel (processed ++ [c]) mapping L ↔
      MatchesLevel processed mapping L ∨
        ∃ p ∈ mapping, p.1 = L ∧ typeCandidate c.message ∈ p.2 := by
  unfold MatchesLevel
  constructor
  · rintro ⟨p, hp, hpl, c', hc', hct⟩
    rcases List.mem_append.mp hc' with h | h
    · exact Or.inl ⟨p, hp, hpl, c', h, hct⟩
    · rcases List.mem_singleton.mp h with rfl
      exact Or.inr ⟨p, hp, hpl, hct⟩
  · rintro (⟨p, hp, hpl, c', hc', hct⟩ | ⟨p, hp, hpl, hct⟩)
    · exact ⟨p, hp, hpl, c', List.mem_append.mpr (Or.inl hc'), hct⟩
    · exact ⟨p, hp, hpl, c,
        List.mem_append.mpr (Or.inr (List.mem_singleton.mpr rfl)), hct⟩

theorem bumpUpdate_spec (ctype : Str) :
    ∀ (mapping : List (Str × List Str)) (h : Option Str),
      (∀ p ∈ mapping, (alistLookup bumpLevelTable (pyUpper p.1)).isSome) →
      (∀ cur, h = some cur → (alistLookup bumpLevelTable (pyUpper cur)).isSome) →
      ∃ r, bumpUpdate mapping ctype h = .ok r ∧
        (r = none → h = none ∧ ∀ p ∈ mapping, ctype ∉ p.2) ∧
        (∀ L, r = some L →
          (h = some L ∨ ∃ p ∈ mapping, p.1 = L ∧ ctype ∈ p.2) ∧
          (∀ cur, h = some cur → levelRank L ≤ levelRank cur) ∧
          (∀ p ∈ mapping, ctype ∈ p.2 → levelRank L ≤ levelRank p.1) ∧
          (alistLookup bumpLevelTable (pyUpper L)).isSome) := by
  intro mapping
  induction mapping with
  | nil =>
    intro h _ hh
    refine ⟨h, rfl, ?_, ?_⟩
    · intro hr
      exact ⟨hr, fun p hp => absurd hp (List.not_mem_nil p)⟩
    · intro L hL
      refine ⟨Or.inl hL, ?_, ?_, hh L hL⟩
      · intro cur hcur
        rw [hL] at hcur
        injection hcur with h3
        rw [h3]
      · intro p hp; exact absurd hp (List.not_mem_nil p)
  | cons p ps ih =>
    intro h hv hh
    have hvp := hv p (List.mem_cons_self _ _)
    have hvps : ∀ q ∈ ps, (alistLookup bumpLevelTable (pyUpper q.1)).isSome :=
      fun q hq => hv q (List.mem_cons_of_mem _ hq)
    by_cases hmem : ctype ∈ p.2
    · cases h with
      | none =>
        have hstep : bumpUpdate (p :: ps) ctype none = bumpUpdate ps ctype (some p.1) := by
          unfold bumpUpdate
          rw [List.foldlM_cons, if_pos hmem]
          rfl
        obtain ⟨r, hr, hnone, hsome⟩ := ih (some p.1) hvps
          (fun cur hc => by injection hc with h3; rw [← h3]; exact hvp)
        refine ⟨r, by rw [hstep]; exact hr, ?_, ?_⟩
        · intro h0
          obtain ⟨h1, _⟩ := hnone h0
          cases h1
        · intro L hL
          obtain ⟨hor, hcur, hmin, hsm⟩ := hsome L hL
          refine ⟨?_, ?_, ?_, hsm⟩
          · rcases hor with h1 | ⟨q, hq, hq1, hq2⟩
            · injection h1 with h1
              exact Or.inr ⟨p, List.mem_cons_self _ _, h1, hmem⟩
            · exact Or.inr ⟨q, List.mem_cons_of_mem _ hq, hq1, hq2⟩
          · intro cur hcur2
            exact Option.noConfusion hcur2
          · intro q hq hq2
            rcases List.mem_cons.mp hq with he | hq
            · rw [he]
              exact hcur p.1 rfl
            · exact hmin q hq hq2
      | some cur =>
        have hvc : (alistLookup bumpLevelTable (pyUpper cur)).isSome := hh cur rfl
        obtain ⟨v, hv1⟩ := Option.isSome_iff_exists.mp hvp
        obtain ⟨w, hw1⟩ := Option.isSome_iff_exists.mp hvc
        have hbv : bumpLevelValue p.1 = .ok v := by rw [bumpLevelValue, hv1]
        have hbw : bumpLevelValue cur = .ok w := by rw [bumpLevelValue, hw1]
        have hrankp : levelRank p.1 = v := by rw [levelRank, hv1]; rfl
        have hrankc : levelRank cur = w := by rw [levelRank, hw1]; rfl
        set h2 : Option Str := if v < w then some p.1 else some cur with hh2
        have hstep : bumpUpdate (p :: ps) ctype (some cur) = bumpUpdate ps ctype h2 := by
          unfold bumpUpdate
          rw [List.foldlM_cons, if_pos hmem]
          show ((bumpLevelValue p.1) >>= fun v' => (bumpLevelValue cur) >>= fun w' =>
            pure (if v' < w' then some p.1 else some cur)) >>= _ = _
          rw [hbv, except_bind_ok, hbw, except_bind_ok, except_pure_bind]
        have hh2some : ∀ x, h2 = some x →
            (alistLookup bumpLevelTable (pyUpper x)).isSome := by
          intro x hx
          rw [hh2] at hx
          by_cases hvw : v < w
          · rw [if_pos hvw] at hx; injection hx with hx; rw [← hx]; exact hvp
          · rw [if_neg hvw] at hx; injection hx with hx; rw [← hx]; exact hvc
        obtain ⟨r, hr, hnone, hsome⟩ := ih h2 hvps hh2some
        have hle_key : ∀ L, (∀ x, h2 = some x → levelRank L ≤ levelRank x) →
            levelRank L ≤ v ∧ levelRank L ≤ w := by
          intro L hcurle
          by_cases hvw : v < w
          · have h2eq : h2 = some p.1 := by rw [hh2, if_pos hvw]
            have hx := hcurle p.1 h2eq
            rw [hrankp] at hx
            exact ⟨hx, by omega⟩
          · have h2eq : h2 = some cur := by rw [hh2, if_neg hvw]
            have hx := hcurle cur h2eq
            rw [hrankc] at hx
            exact ⟨by omega, hx⟩
        refine ⟨r, by rw [hstep]; exact hr, ?_, ?_⟩
        · intro h0
          obtain ⟨h1, _⟩ := hnone h0
          rw [hh2] at h1
          by_cases hvw : v < w
          · rw [if_pos hvw] at h1; cases h1
          · rw [if_neg hvw] at h1; cases h1
        · intro L hL
          obtain ⟨hor, hcurle, hmin, hsm⟩ := hsome L hL
          obtain ⟨hlev, hlew⟩ := hle_key L hcurle
          have h2cases : h2 = some p.1 ∨ h2 = some cur := by
            rw [hh2]
            by_cases hvw : v < w
            · rw [if_pos hvw]; exact Or.inl rfl
            · rw [if_neg hvw]; exact Or.inr rfl
          refine ⟨?_, ?_, ?_, hsm⟩
          · rcases hor with h1 | ⟨q, hq, hq1, hq2⟩
            · rcases h2cases with h2c | h2c
              · rw [h1] at h2c
                injection h2c with h2c
                exact Or.inr ⟨p, List.mem_cons_self _ _, h2c.symm, hmem⟩
              · rw [h1] at h2c
                injection h2c with h2c
                rw [h2c]
                exact Or.inl rfl
            · exact Or.inr ⟨q, List.mem_cons_of_mem _ hq, hq1, hq2⟩
          · intro cur' hc
            injection hc with hc
            rw [← hc, hrankc]
            exact hlew
          · intro q hq hq2
            rcases List.mem_cons.mp hq with he | hq
            · rw [he, hrankp]
              exact hlev
            · exact hmin q hq hq2
    · have hstep : ∀ h0 : Option Str,
          bumpUpdate (p :: ps) ctype h0 = bumpUpdate ps ctype h0 := by
        intro h0
        unfold bumpUpdate
        rw [List.foldlM_cons, if_neg hmem, except_pure_bind]
      obtain ⟨r, hr, hnone, hsome⟩ := ih h hvps hh
      refine ⟨r, by rw [hstep]; exact hr, ?_, ?_⟩
      · intro h0
        obtain ⟨h1, h2⟩ := hnone h0
        refine ⟨h1, ?_⟩
        intro q hq
        rcases List.mem_cons.mp hq with he | hq
        · rw [he]; exact hmem
        · exact h2 q hq
      · intro L hL
        obtain ⟨hor, hcur, hmin, hsm⟩ := hsome L hL
        refine ⟨?_, hcur, ?_, hsm⟩
        · rcases hor with h1 | ⟨q, hq, hq1, hq2⟩
          · exact Or.inl h1
          · exact Or.inr ⟨q, List.mem_cons_of_mem _ hq, hq1, hq2⟩
        · intro q hq hq2
          rcases List.mem_cons.mp hq with he | hq
          · rw [he] at hq2; exact absurd hq2 hmem
          · exact hmin q hq hq2

theorem determine_bump_go (mapping : List (Str × List Str))
    (hv : ∀ p ∈ mapping, (alistLookup bumpLevelTable (pyUpper p.1)).isSome) :
    ∀ (cs processed : List GitCommit) (h : Option Str),
      (h = none → ∀ L, ¬ MatchesLevel processed mapping L) →
      (∀ L, h = some L → MatchesLevel processed mapping L ∧
        (∀ M, MatchesLevel processed mapping M → levelRank L ≤ levelRank M) ∧
        (alistLookup bumpLevelTable (pyUpper L)).isSome) →
      ∃ r, cs.foldlM (fun h' c => bumpUpdate mapping (typeCandidate c.message) h') h
          = .ok r ∧
        (r = none → ∀ L, ¬ MatchesLevel (processed ++ cs) mapping L) ∧
        (∀ L, r = some L → MatchesLevel (processed ++ cs) mapping L ∧
          (∀ M, MatchesLevel (processed ++ cs) mapping M → levelRank L ≤ levelRank M)) := by
  intro cs
  induction cs with
  | nil =>
    intro processed h hnone hsome
    refine ⟨h, rfl, ?_, ?_⟩
    · rw [List.append_nil]; exact hnone
    · intro L hL
      rw [List.append_nil]
      have := hsome L hL
      exact ⟨this.1, this.2.1⟩
  | cons c cs ih =>
    intro processed h hnone hsome
    obtain ⟨h', hh', hn', hs'⟩ := bumpUpdate_spec (typeCandidate c.message) mapping h hv
      (fun cur hc => (hsome cur hc).2.2)
    have hnone' : h' = none → ∀ L, ¬ MatchesLevel (processed ++ [c]) mapping L := by
      intro h0 L hM
      obtain ⟨hnh, hnomatch⟩ := hn' h0
      rcases (matchesLevel_append_singleton processed c mapping L).mp hM with
        hM2 | ⟨p, hp, _, hp2⟩
      · exact hnone hnh L hM2
      · exact hnomatch p hp hp2
    have hsome' : ∀ L, h' = some L → MatchesLevel (processed ++ [c]) mapping L ∧
        (∀ M, MatchesLevel (processed ++ [c]) mapping M → levelRank L ≤ levelRank M) ∧
        (alistLookup bumpLevelTable (pyUpper L)).isSome := by
      intro L hL
      obtain ⟨hor, hcur, hminmap, hsm⟩ := hs' L hL
      refine ⟨?_, ?_, hsm⟩
      · rcases hor with h1 | ⟨p, hp, hp1, hp2⟩
        · exact (matchesLevel_append_singleton processed c mapping L).mpr
            (Or.inl (hsome L h1).1)
        · exact (matchesLevel_append_singleton processed c mapping L).mpr
            (Or.inr ⟨p, hp, hp1, hp2⟩)
      · intro M hM
        rcases (matchesLevel_append_singleton processed c mapping M).mp hM with
          hM2 | ⟨p, hp, hp1, hp2⟩
        · cases hcase : h with
          | none => exact absurd hM2 (hnone hcase M)
          | some cur =>
            have h1 := (hsome cur hcase).2.1 M hM2
            have h2 := hcur cur hcase
            omega
        · have := hminmap p hp hp2
          rw [← hp1]
          exact this
    obtain ⟨r, hr, hr1, hr2⟩ := ih (processed ++ [c]) h' hnone' hsome'
    rw [List.append_assoc] at hr1 hr2
    refine ⟨r, ?_, hr1, hr2⟩
    rw [List.foldlM_cons, hh', except_bind_ok]
    exact hr

/-- C1: for every commit list and valid mapping, the conventional decision
is a level with at least one commit whose derived type (text before the
first colon) is in that level's type set, minimal in the fixed precedence
order (major before minor before patch, by BumpLevel value); no decision is
reported exactly when no level has a matching commit. -/
theorem determine_bump_highest_precedence (commits : List GitCommit)
    (mapping : List (Str × List Str))
    (hv : ∀ p ∈ mapping, (alistLookup bumpLevelTable (pyUpper p.1)).isSome) :
    ∃ r, determine_bump commits mapping = .ok r ∧
      (r = none → ∀ L, ¬ MatchesLevel commits mapping L) ∧
      (∀ L, r = some L → MatchesLevel commits mapping L ∧
        ∀ M, MatchesLevel commits mapping M → levelRank L ≤ levelRank M) := by
  obtain ⟨r, hr, h1, h2⟩ := determine_bump_go mapping hv commits [] none
    (fun _ L hM => by
      obtain ⟨p, _, _, c', hc', _⟩ := hM
      cases hc')
    (fun L hL => Option.noConfusion hL)
  rw [List.nil_append] at h1 h2
  exact ⟨r, hr, h1, fun L hL => h2 L hL⟩

/-- Witness for C1 at commits feat: x and fix: y under mapping feat to
minor and fix to patch: the decision is minor. -/
theorem determine_bump_highest_precedence_witness :
    determine_bump [mkCommit "feat: x".data, mkCommit "fix: y".data]
        [("minor".data, ["feat".data]), ("patch".data, ["fix".data])]
      = .ok (some "minor".data) ∧
    (∃ r, determine_bump [mkCommit "feat: x".data, mkCommit "fix: y".data]
        [("minor".data, ["feat".data]), ("patch".data, ["fix".data])] = .ok r ∧
      (r = none → ∀ L, ¬ MatchesLevel [mkCommit "feat: x".data, mkCommit "fix: y".data]
        [("minor".data, ["feat".data]), ("patch".data, ["fix".data])] L) ∧
      (∀ L, r = some L → MatchesLevel [mkCommit "feat: x".data, mkCommit "fix: y".data]
          [("minor".data, ["feat".data]), ("patch".data, ["fix".data])] L ∧
        ∀ M, MatchesLevel [mkCommit "feat: x".data, mkCommit "fix: y".data]
          [("minor".data, ["feat".data]), ("patch".data, ["fix".data])] M →
            levelRank L ≤ levelRank M)) :=
  ⟨by rfl, determine_bump_highest_precedence _ _ (by decide)⟩

theorem takeWhile_ne_colon : ∀ {s : Str}, ':' ∉ s → typeCandidate s = s := by
  intro s
  induction s with
  | nil => intro _; rfl
  | cons x xs ih =>
    intro h
    have hx : (x != ':') = true :=
      bne_iff_ne.mpr (fun hc => h (hc ▸ List.mem_cons_self _ _))
    have hxs : ':' ∉ xs := fun hc => h (List.mem_cons_of_mem _ hc)
    rw [typeCandidate, List.takeWhile_cons, if_pos hx]
    have := ih hxs
    rw [typeCandidate] at this
    rw [this]

theorem bumpUpdate_no_match {t : Str} :
    ∀ (mapping : List (Str × List Str)) (h : Option Str),
      (∀ p ∈ mapping, t ∉ p.2) → bumpUpdate mapping t h = .ok h := by
  intro mapping
  induction mapping with
  | nil => intro h _; rfl
  | cons p ps ih =>
    intro h hall
    unfold bumpUpdate
    rw [List.foldlM_cons, if_neg (hall p (List.mem_cons_self _ _)), except_pure_bind]
    exact ih h (fun q hq => hall q (List.mem_cons_of_mem _ hq))

/-- C7 (amended): a commit message with no colon is its own derived type
candidate; when that candidate equals no configured type the commit
contributes nothing to the bump decision and is classified into Other
Changes; but the candidate can equal a configured type, in which case it
does match. -/
theorem no_colon_whole_message (c : GitCommit) (mapping : List (Str × List Str))
    (tm : List (Str × Str)) (rest : List GitCommit) (fmt : Str) (rc : Str)
    (h : ':' ∉ c.message) :
    typeCandidate c.message = c.message ∧
    ((∀ p ∈ mapping, c.message ∉ p.2) →
      determine_bump (c :: rest) mapping = determine_bump rest mapping) ∧
    (alistLookup tm c.message = none → format_commit c fmt = .ok rc →
      generate_conventional_changelog [c] tm fmt =
        .ok ("### Other Changes\n".data ++ rc)) := by
  have htc := takeWhile_ne_colon h
  refine ⟨htc, ?_, ?_⟩
  · intro hall
    unfold determine_bump
    rw [List.foldlM_cons, htc, bumpUpdate_no_match mapping none hall, except_bind_ok]
  · intro hlook hfc
    unfold generate_conventional_changelog
    rw [List.foldlM_cons]
    have hstep : changelogStep tm fmt (sectionsFor tm, []) c =
        .ok (sectionsFor tm, [rc]) := by
      unfold changelogStep
      rw [htc, hlook, hfc, except_bind_ok]
      rfl
    simp only [List.foldlM_nil]
    rw [hstep, except_bind_ok, except_pure_bind]
    have hfm : (sectionsFor tm).filterMap (fun p =>
        if p.2 ≠ [] then
          some ("### ".data ++ p.1 ++ '\n' :: joinWith ['\n'] p.2)
        else none) = [] := by
      rw [List.filterMap_eq_nil_iff]
      intro p hp
      obtain ⟨s, _, rfl⟩ := List.mem_map.mp hp
      simp
    show Except.ok (renderSections (sectionsFor tm) [rc]) = _
    unfold renderSections
    rw [hfm]
    rfl

/-- Witness for C7 at the no-colon message chore under mapping feat to
minor and section mapping feat to Features. -/
theorem no_colon_whole_message_witness :
    typeCandidate "chore".data = "chore".data ∧
    ((∀ p ∈ [(("minor".data : Str), (["feat".data] : List Str))],
        "chore".data ∉ p.2) →
      determine_bump (mkCommit "chore".data :: [])
          [("minor".data, ["feat".data])]
        = determine_bump [] [("minor".data, ["feat".data])]) ∧
    (alistLookup [(("feat".data : Str), ("Features".data : Str))] "chore".data = none →
      format_commit (mkCommit "chore".data) "- {message}".data = .ok "- chore".data →
      generate_conventional_changelog [mkCommit "chore".data]
          [("feat".data, "Features".data)] "- {message}".data =
        .ok ("### Other Changes\n".data ++ "- chore".data)) :=
  no_colon_whole_message (mkCommit "chore".data) _ _ _ _ _ (by decide)

/-- Counterexample for C7: the message feat contains no colon, yet under
mapping feat to minor it matches the configured type feat and contributes
the minor level, so a no-colon commit does not always fail to match. -/
theorem no_colon_message_counterexample :
    (':' ∉ ("feat".data : Str)) ∧
    determine_bump [mkCommit "feat".data] [("minor".data, ["feat".data])] =
      .ok (some "minor".data) := by
  constructor
  · decide
  · rfl

theorem alistLookup_mem {β : Type} {k : Str} {v : β} :
    ∀ {l : List (Str × β)}, alistLookup l k = some v → ∃ p ∈ l, p.1 = k ∧ p.2 = v := by
  intro l
  induction l with
  | nil => intro h; cases h
  | cons p rest ih =>
    intro h
    rw [alistLookup] at h
    by_cases hp : p.1 = k
    · rw [if_pos hp] at h
      injection h with h
      exact ⟨p, List.mem_cons_self _ _, hp, h⟩
    · rw [if_neg hp] at h
      obtain ⟨q, hq, hq1, hq2⟩ := ih h
      exact ⟨q, List.mem_cons_of_mem _ hq, hq1, hq2⟩

theorem bucketAppend_map_mem (f : Str → List Str) (v : Str) :
    ∀ {names : List Str} {s : Str}, names.Nodup → s ∈ names →
      bucketAppend (names.map fun n => (n, f n)) s v =
        names.map (fun n => (n, if n = s then f n ++ [v] else f n)) := by
  intro names
  induction names with
  | nil => intro s _ hs; cases hs
  | cons m ms ih =>
    intro s hnd hs
    simp only [List.map_cons, bucketAppend]
    by_cases hm : m = s
    · rw [if_pos hm, if_pos hm]
      subst hm
      congr 1
      have hm_not : m ∉ ms := (List.nodup_cons.mp hnd).1
      apply List.map_congr_left
      intro a ha
      have hne : ¬a = m := fun hc => hm_not (hc ▸ ha)
      rw [if_neg hne]
    · rw [if_neg hm, if_neg hm]
      congr 1
      have hs' : s ∈ ms := by
        rcases List.mem_cons.mp hs with he | he
        · exact absurd he.symm hm
        · exact he
      exact ih (List.nodup_cons.mp hnd).2 hs'

theorem changelogStep_state (tm : List (Str × Str)) (fmt : Str) (r : GitCommit → Str)
    (hsec : ∀ p ∈ tm, p.2 ≠ []) (processed : List GitCommit) (c : GitCommit)
    (hc : format_commit c fmt = .ok (r c)) :
    changelogStep tm fmt (changelogStateFor tm r processed) c =
      .ok (changelogStateFor tm r (processed ++ [c])) := by
  cases hopt : alistLookup tm (typeCandidate c.message) with
  | none =>
    have hroute : routedSection tm c = none := hopt
    unfold changelogStep
    simp only [hopt, hc, except_bind_ok]
    unfold changelogStateFor
    simp [List.filter_append, List.filter, hroute]
    rfl
  | some s =>
    obtain ⟨p, hp, _, hp2⟩ := alistLookup_mem hopt
    have hsne : s ≠ [] := hp2 ▸ hsec p hp
    have hroute : routedSection tm c = some s := hopt
    have hsnames : s ∈ dedupFirst (tm.map (fun p2 => p2.2)) :=
      (mem_dedupFirst _ _).mpr (List.mem_map.mpr ⟨p, hp, hp2⟩)
    unfold changelogStep
    simp only [hopt, hc, except_bind_ok, if_pos hsne]
    rw [changelogStateFor, changelogStateFor]
    rw [bucketAppend_map_mem _ _ (nodup_dedupFirst _) hsnames]
    simp only [List.filter_append, List.map_append, List.filter, hroute]
    refine congrArg Except.ok ?_
    have hfalse : (decide ((some s : Option Str) = none)) = false := by simp
    rw [hfalse]
    simp only [List.map_nil, List.append_nil]
    congr 1
    apply List.map_congr_left
    intro n _
    by_cases hn : n = s
    · subst hn
      rw [if_pos rfl]
      have htrue : (decide ((some n : Option Str) = some n)) = true := by simp
      rw [htrue]
      rfl
    · rw [if_neg hn]
      have hfalse2 : (decide ((some s : Option Str) = some n)) = false := by
        simp
        exact fun hh => hn hh.symm
      rw [hfalse2]
      simp

theorem changelogLoop_state (tm : List (Str × Str)) (fmt : Str) (r : GitCommit → Str)
    (hsec : ∀ p ∈ tm, p.2 ≠ []) :
    ∀ (cs processed : List GitCommit),
      (∀ c ∈ cs, format_commit c fmt = .ok (r c)) →
      cs.foldlM (changelogStep tm fmt) (changelogStateFor tm r processed) =
        .ok (changelogStateFor tm r (processed ++ cs)) := by
  intro cs
  induction cs with
  | nil =>
    intro processed _
    rw [List.foldlM_nil, List.append_nil]
    rfl
  | cons c cs ih =>
    intro processed hr
    rw [List.foldlM_cons,
      changelogStep_state tm fmt r hsec processed c (hr c (List.mem_cons_self _ _)),
      except_bind_ok,
      ih (processed ++ [c]) (fun c2 h2 => hr c2 (List.mem_cons_of_mem _ h2)),
      List.append_assoc]
    rfl

/-- C8: with every configured section named (non-empty) and every commit
rendering successfully, the generated conventional changelog is exactly the
claim-side document: named sections in first-appearance order of section
names, empty sections omitted, unmatched commits in a trailing Other
Changes block omitted when empty, each block a header line followed by its
commit lines, blocks joined by a blank line. -/
theorem generate_conventional_changelog_matches_spec (commits : List GitCommit)
    (tm : List (Str × Str)) (fmt : Str) (r : GitCommit → Str)
    (hsec : ∀ p ∈ tm, p.2 ≠ [])
    (hr : ∀ c ∈ commits, format_commit c fmt = .ok (r c)) :
    generate_conventional_changelog commits tm fmt =
      .ok (conventional_changelog_spec commits tm r) := by
  unfold generate_conventional_changelog
  have hinit : (sectionsFor tm, ([] : List Str)) = changelogStateFor tm r [] := by
    unfold sectionsFor changelogStateFor
    rfl
  rw [hinit, changelogLoop_state tm fmt r hsec commits [] hr, List.nil_append,
    except_bind_ok]
  unfold renderSections conventional_changelog_spec changelogStateFor
  rw [List.filterMap_map]
  rfl

/-- Witness for C8 at mapping feat to Features, fix to Bug Fixes over
commits feat, fix and docs with the dash-message template. -/
theorem generate_conventional_changelog_matches_spec_witness :
    generate_conventional_changelog
        [mkCommit "feat: x".data, mkCommit "fix: y".data, mkCommit "docs: z".data]
        [("feat".data, "Features".data), ("fix".data, "Bug Fixes".data)]
        "- {message}".data =
      .ok (conventional_changelog_spec
        [mkCommit "feat: x".data, mkCommit "fix: y".data, mkCommit "docs: z".data]
        [("feat".data, "Features".data), ("fix".data, "Bug Fixes".data)]
        (fun c => "- ".data ++ c.message)) :=
  generate_conventional_changelog_matches_spec _ _ _ _ (by decide)
    (by
      intro c hc
      rcases List.mem_cons.mp hc with rfl | hc
      · rfl
      rcases List.mem_cons.mp hc with rfl | hc
      · rfl
      rcases List.mem_cons.mp hc with rfl | hc
      · rfl
      cases hc)

theorem foldl_latest_tag (tags : List (Str × Nat)) :
    ∀ (best : Option (Str × Nat)),
      (tags.foldl (fun b p =>
          match b with
          | none => some p
          | some q2 => if p.2 < q2.2 then some p else some q2) best = none →
        best = none ∧ tags = []) ∧
      (∀ q, tags.foldl (fun b p =>
          match b with
          | none => some p
          | some q2 => if p.2 < q2.2 then some p else some q2) best = some q →
        (q ∈ tags ∨ best = some q) ∧ (∀ p ∈ tags, q.2 ≤ p.2) ∧
        (∀ b, best = some b → q.2 ≤ b.2)) := by
  induction tags with
  | nil =>
    intro best
    constructor
    · intro h; exact ⟨h, rfl⟩
    · intro q hq
      have hbq : best = some q := hq
      refine ⟨Or.inr hbq, fun p hp => absurd hp (List.not_mem_nil p), ?_⟩
      intro b hb
      rw [hbq] at hb
      injection hb with h
      rw [h]
  | cons p ps ih =>
    intro best
    rw [List.foldl_cons]
    cases best with
    | none =>
      have hacc : (match (none : Option (Str × Nat)) with
          | none => some p
          | some q2 => if p.2 < q2.2 then some p else some q2) = some p := rfl
      rw [hacc]
      constructor
      · intro h
        obtain ⟨h1, _⟩ := (ih (some p)).1 h
        cases h1
      · intro q hq
        obtain ⟨hor, hmin, hb⟩ := (ih (some p)).2 q hq
        refine ⟨?_, ?_, fun b hb2 => Option.noConfusion hb2⟩
        · rcases hor with h1 | h1
          · exact Or.inl (List.mem_cons_of_mem _ h1)
          · injection h1 with h1
            exact Or.inl (h1 ▸ List.mem_cons_self _ _)
        · intro p2 hp2
          rcases List.mem_cons.mp hp2 with he | hp2
          · rw [he]; exact hb p rfl
          · exact hmin p2 hp2
    | some b0 =>
      have hacc : (match (some b0 : Option (Str × Nat)) with
          | none => some p
          | some q2 => if p.2 < q2.2 then some p else some q2) =
          if p.2 < b0.2 then some p else some b0 := rfl
      rw [hacc]
      by_cases hlt : p.2 < b0.2
      · rw [if_pos hlt]
        constructor
        · intro h
          obtain ⟨h1, _⟩ := (ih (some p)).1 h
          cases h1
        · intro q hq
          obtain ⟨hor, hmin, hb⟩ := (ih (some p)).2 q hq
          have hqp : q.2 ≤ p.2 := hb p rfl
          refine ⟨?_, ?_, ?_⟩
          · rcases hor with h1 | h1
            · exact Or.inl (List.mem_cons_of_mem _ h1)
            · injection h1 with h1
              exact Or.inl (h1 ▸ List.mem_cons_self _ _)
          · intro p2 hp2
            rcases List.mem_cons.mp hp2 with he | hp2
            · rw [he]; exact hqp
            · exact hmin p2 hp2
          · intro b hb2
            injection hb2 with hb2
            rw [← hb2]
            omega
      · rw [if_neg hlt]
        constructor
        · intro h
          obtain ⟨h1, _⟩ := (ih (some b0)).1 h
          cases h1
        · intro q hq
          obtain ⟨hor, hmin, hb⟩ := (ih (some b0)).2 q hq
          have hqb : q.2 ≤ b0.2 := hb b0 rfl
          refine ⟨?_, ?_, ?_⟩
          · rcases hor with h1 | h1
            · exact Or.inl (List.mem_cons_of_mem _ h1)
            · exact Or.inr h1
          · intro p2 hp2
            rcases List.mem_cons.mp hp2 with he | hp2
            · rw [he]; omega
            · exact hmin p2 hp2
          · intro b hb2
            injection hb2 with hb2
            rw [← hb2]
            exact hqb

theorem alistLookup_of_mem_nodup {t : Str} {n : Nat} :
    ∀ {l : List (Str × Nat)}, (t, n) ∈ l → (l.map (fun p => p.1)).Nodup →
      alistLookup l t = some n := by
  intro l
  induction l with
  | nil => intro h; cases h
  | cons p ps ih =>
    intro hm hnd
    rw [alistLookup]
    rcases List.mem_cons.mp hm with he | hm2
    · subst he
      rw [if_pos rfl]
    · by_cases hp : p.1 = t
      · rw [List.map_cons, List.nodup_cons] at hnd
        exact absurd (List.mem_map.mpr ⟨(t, n), hm2, rfl⟩)
          (by rw [hp] at hnd; exact hnd.1)
      · rw [if_neg hp]
        rw [List.map_cons, List.nodup_cons] at hnd
        exact ih hm2 hnd.2

/-- C3: the conventional bump decision examines exactly the commits since
the most recent existing version tag, and all retrievable commits when no
tag exists. The latest-tag retrieval is modelled from the spec because
GitRepository.get_latest_tag is absent from the sources. -/
theorem determine_bump_scopes_commits (s : RepoState) (ms : Str)
    (hnd : (s.tags.map (fun p => p.1)).Nodup) :
    (s.tags = [] → get_latest_tag s = none ∧
      determine_bump_from_conventional_commits s ms =
        (collect_bump_mapping ms >>= fun mapping => determine_bump s.commits mapping)) ∧
    (s.tags ≠ [] → ∃ t n, get_latest_tag s = some t ∧ (t, n) ∈ s.tags ∧
      (∀ p ∈ s.tags, n ≤ p.2) ∧
      determine_bump_from_conventional_commits s ms =
        (collect_bump_mapping ms >>= fun mapping =>
          determine_bump (s.commits.take n) mapping)) := by
  constructor
  · intro h0
    have hlt : get_latest_tag s = none := by
      rw [get_latest_tag, h0]
      rfl
    refine ⟨hlt, ?_⟩
    unfold determine_bump_from_conventional_commits
    rw [hlt]
    rfl
  · intro h0
    obtain ⟨q, hq⟩ : ∃ q, s.tags.foldl (fun b p =>
        match b with
        | none => some p
        | some q2 => if p.2 < q2.2 then some p else some q2) none = some q := by
      cases hr : s.tags.foldl (fun b p =>
          match b with
          | none => some p
          | some q2 => if p.2 < q2.2 then some p else some q2) none with
      | none =>
        obtain ⟨_, h2⟩ := (foldl_latest_tag s.tags none).1 hr
        exact absurd h2 h0
      | some q => exact ⟨q, rfl⟩
    obtain ⟨hor, hmin, _⟩ := (foldl_latest_tag s.tags none).2 q hq
    have hqmem : q ∈ s.tags := by
      rcases hor with h | h
      · exact h
      · exact Option.noConfusion h
    have hlt : get_latest_tag s = some q.1 := by
      rw [get_latest_tag, hq]
      rfl
    refine ⟨q.1, q.2, hlt, by simpa using hqmem, hmin, ?_⟩
    unfold determine_bump_from_conventional_commits
    rw [hlt]
    have hlook : alistLookup s.tags q.1 = some q.2 :=
      alistLookup_of_mem_nodup (by simpa using hqmem) hnd
    have hsince : get_commits_since s (some q.1) = .ok (s.commits.take q.2) := by
      unfold get_commits_since
      simp only [hlook]
    show (do
      let commits ← get_commits_since s (some q.1)
      let mapping ← collect_bump_mapping ms
      determine_bump commits mapping) = _
    rw [hsince, except_bind_ok]

/-- Witness for C3 at a repository with tags v1 (three commits after it)
and v2 (one commit after it): the latest tag is v2 and only the one commit
after it is examined. -/
theorem determine_bump_scopes_commits_witness :
    (([(("v1".data : Str), 3), (("v2".data : Str), 1)] :
        List (Str × Nat)) = [] → get_latest_tag
          { commits := [mkCommit "feat: a".data, mkCommit "fix: b".data,
              mkCommit "docs: c".data, mkCommit "feat: d".data],
            tags := [("v1".data, 3), ("v2".data, 1)] } = none ∧
      determine_bump_from_conventional_commits
          { commits := [mkCommit "feat: a".data, mkCommit "fix: b".data,
              mkCommit "docs: c".data, mkCommit "feat: d".data],
            tags := [("v1".data, 3), ("v2".data, 1)] } "feat:minor,fix:patch".data =
        (collect_bump_mapping "feat:minor,fix:patch".data >>= fun mapping =>
          determine_bump [mkCommit "feat: a".data, mkCommit "fix: b".data,
            mkCommit "docs: c".data, mkCommit "feat: d".data] mapping)) ∧
    (([(("v1".data : Str), 3), (("v2".data : Str), 1)] :
        List (Str × Nat)) ≠ [] → ∃ t n, get_latest_tag
          { commits := [mkCommit "feat: a".data, mkCommit "fix: b".data,
              mkCommit "docs: c".data, mkCommit "feat: d".data],
            tags := [("v1".data, 3), ("v2".data, 1)] } = some t ∧
        (t, n) ∈ ([(("v1".data : Str), 3), (("v2".data : Str), 1)] :
          List (Str × Nat)) ∧
        (∀ p ∈ ([(("v1".data : Str), 3), (("v2".data : Str), 1)] :
          List (Str × Nat)), n ≤ p.2) ∧
        determine_bump_from_conventional_commits
            { commits := [mkCommit "feat: a".data, mkCommit "fix: b".data,
                mkCommit "docs: c".data, mkCommit "feat: d".data],
              tags := [("v1".data, 3), ("v2".data, 1)] } "feat:minor,fix:patch".data =
          (collect_bump_mapping "feat:minor,fix:patch".data >>= fun mapping =>
            determine_bump ([mkCommit "feat: a".data, mkCommit "fix: b".data,
              mkCommit "docs: c".data, mkCommit "feat: d".data].take n) mapping)) :=
  determine_bump_scopes_commits
    { commits := [mkCommit "feat: a".data, mkCommit "fix: b".data,
        mkCommit "docs: c".data, mkCommit "feat: d".data],
      tags := [("v1".data, 3), ("v2".data, 1)] }
    "feat:minor,fix:patch".data (by decide)

/-- C9 evaluation at the failing input: with the arguments --bump minor
--bump patch the single-valued store option keeps the last value, and
execute proceeds with patch instead of failing with the
only-one-release-component error expected by the spec and the test suite. -/
theorem bump_repeated_release_components_last_wins :
    parseBumpOption ["--bump".data, "minor".data, "--bump".data, "patch".data] none
      = .ok (some "patch".data) ∧
    (∀ cb, execute_select_bump (some "patch".data) false cb = .ok (some "patch".data)) :=
  ⟨rfl, fun _ => rfl⟩

/-- C10 (amended): only an absent (None) template fails — with the
ValidationError message No format string provided. — for key extraction,
validation and rendering alike; an empty template is accepted and renders
to the empty string. -/
theorem customformatter_no_template :
    (∀ kwargs, (CustomFormatter.mk none).format kwargs = .error noTemplateMsg) ∧
    (CustomFormatter.mk none).get_keys none = .error noTemplateMsg ∧
    (∀ mapping, (CustomFormatter.mk none).check_format_string mapping none =
      .error noTemplateMsg) ∧
    (CustomFormatter.mk (some [])).format [] = .ok [] :=
  ⟨fun _ => rfl, rfl, fun _ => rfl, rfl⟩

/-- Counterexample for C10: an empty (rather than absent) template does not
fail; rendering it silently returns the empty string. -/
theorem customformatter_empty_template_counterexample :
    (CustomFormatter.mk (some [])).format [] = .ok [] ∧
    (CustomFormatter.mk (some [])).format [] ≠ .error noTemplateMsg :=
  ⟨rfl, fun h => Except.noConfusion h⟩
